import Mathlib

/-!
Verification of the subtitle pipeline of AiAssistantPro against its
specification.  The Python sources (translator.py, transcriber.py,
subtitle_burner.py, utils.py) are shallowly embedded below: text is
`List Char`, the file system and the external HTTP capabilities are
explicit function parameters, Python exceptions become `Except`
results, and Python `float` arithmetic in the timestamp formatter is
modelled exactly over `ℚ`.
-/

namespace AiAssistantPro

/-- The set of characters Python's `str.strip()` / `str.isspace()` and the
`re` module's `\s` class (unicode mode) treat as whitespace. -/
def pySpace (c : Char) : Bool :=
  let v := c.val
  v = 32 || (9 ≤ v && v ≤ 13) || (28 ≤ v && v ≤ 31) || v = 133 || v = 160 ||
  v = 0x1680 || (0x2000 ≤ v && v ≤ 0x200a) || v = 0x2028 || v = 0x2029 ||
  v = 0x202f || v = 0x205f || v = 0x3000

/-- Python `s.strip()`: remove leading and trailing whitespace. -/
def pyStrip (s : List Char) : List Char :=
  ((s.dropWhile pySpace).reverse.dropWhile pySpace).reverse

/-- Python `s.split(sep)` for a one-character separator: split on every
occurrence, keeping empty pieces. -/
def splitOnChar (sep : Char) : List Char → List (List Char)
  | [] => [[]]
  | c :: rest =>
    if c = sep then [] :: splitOnChar sep rest
    else
      match splitOnChar sep rest with
      | l :: ls => (c :: l) :: ls
      | [] => [[c]]

/-- Python `s.split('\n')`. -/
def splitLines (s : List Char) : List (List Char) := splitOnChar '\n' s

/-- Python `'\n'.join(lines)`. -/
def joinLines : List (List Char) → List Char
  | [] => []
  | [l] => l
  | l :: ls => l ++ '\n' :: joinLines ls

/-- Numeric value of an ASCII digit character. -/
def digitVal (c : Char) : Nat := c.toNat - 48

/-- Value of a string of ASCII digits, most significant first. -/
def digitsVal (ds : List Char) : Nat := ds.foldl (fun a c => a * 10 + digitVal c) 0

/-- The ASCII digit character for `d < 10`. -/
def digitChar (d : Nat) : Char :=
  if d = 0 then '0' else if d = 1 then '1' else if d = 2 then '2'
  else if d = 3 then '3' else if d = 4 then '4' else if d = 5 then '5'
  else if d = 6 then '6' else if d = 7 then '7' else if d = 8 then '8' else '9'

/-- Recursion core of `natDigits`; the fuel argument only makes the
recursion structural and is irrelevant once it is at least `n + 1`. -/
def ndGo : Nat → Nat → List Char
  | 0, _ => []
  | fuel + 1, n =>
    if n < 10 then [digitChar n] else ndGo fuel (n / 10) ++ [digitChar (n % 10)]

/-- Decimal digit string of a natural number, as Python's `str` prints it. -/
def natDigits (n : Nat) : List Char := ndGo (n + 1) n

/-- Python `str(i)` for an integer. -/
def intStr (i : Int) : List Char :=
  if i < 0 then '-' :: natDigits (-i).toNat else natDigits i.toNat

/-- Python `int(s)`: strip whitespace, optional sign, ASCII digits.
(Python additionally accepts unicode digits and `_` grouping; no input in
this development uses those forms.) -/
def pyIntCore : List Char → Option Int
  | [] => none
  | c :: ds =>
    if c = '+' then
      if ds.isEmpty then none
      else if ds.all Char.isDigit then some (digitsVal ds) else none
    else if c = '-' then
      if ds.isEmpty then none
      else if ds.all Char.isDigit then some (-(digitsVal ds : Int)) else none
    else if (c :: ds).all Char.isDigit then some (digitsVal (c :: ds)) else none

/-- Python `int(s)` on a raw string (which strips whitespace first). -/
def pyInt? (s : List Char) : Option Int := pyIntCore (pyStrip s)

/-- One subtitle entry as `parse_srt_file` builds it: a dict with keys
`index`, `timestamp` (the raw second line, unvalidated) and `text`. -/
structure Subtitle where
  index : Int
  timestamp : List Char
  text : List Char
deriving DecidableEq, Repr

/-- Helper for the `re.split(r'\n\s*\n', …)` model: positioned just after a
`'\n'`, return how many further characters the (greedy) separator match
consumes: the whitespace run up to and including its last `'\n'`, if that
run contains another `'\n'`. -/
def afterSepCount : List Char → Option Nat
  | [] => none
  | c :: cs =>
    if c = '\n' then
      some (match afterSepCount cs with | some n => n + 1 | none => 1)
    else if pySpace c then (afterSepCount cs).map (· + 1)
    else none

/-- Recursion core of the `re.split(r'\n\s*\n', …)` model; the fuel
argument only makes the recursion structural and is irrelevant once it is
at least the input's length. -/
def sbGo : Nat → List Char → List Char → List (List Char)
  | _, acc, [] => [acc.reverse]
  | 0, acc, l => [acc.reverse ++ l]
  | fuel + 1, acc, c :: rest =>
    if c = '\n' then
      match afterSepCount rest with
      | some n => acc.reverse :: sbGo fuel [] (rest.drop n)
      | none => sbGo fuel (c :: acc) rest
    else sbGo fuel (c :: acc) rest

/-- `re.split(r'\n\s*\n', s)`: leftmost, greedy, non-overlapping matches of
a blank-line separator. -/
def splitBlanksAux (acc : List Char) (l : List Char) : List (List Char) :=
  sbGo l.length acc l

/-- `re.split(r'\n\s*\n', s)` from the start of the input. -/
def splitBlanks (s : List Char) : List (List Char) := splitBlanksAux [] s

/-- The body of the `for block in blocks` loop of `parse_srt_file`:
`block.strip().split('\n')`, require at least 3 lines, `int(lines[0])`,
keep line 2 verbatim as the timestamp, join the rest with `'\n'`. -/
def parseBlock (block : List Char) : Option Subtitle :=
  match splitLines (pyStrip block) with
  | l0 :: l1 :: l2 :: rest =>
    match pyInt? l0 with
    | some index => some ⟨index, l1, joinLines (l2 :: rest)⟩
    | none => none
  | _ => none

/-- `parse_srt_file`, applied to the file's content: split on blank lines,
keep the well-formed blocks, silently skip the rest. -/
def parse_srt (content : List Char) : List Subtitle :=
  (splitBlanks (pyStrip content)).filterMap parseBlock

/-- The text `create_translated_srt` writes for one subtitle:
`f"{index}\n{timestamp}\n{text}\n\n"`. -/
def subtitleBlockOut (s : Subtitle) : List Char :=
  intStr s.index ++ '\n' :: (s.timestamp ++ '\n' :: (s.text ++ ['\n', '\n']))

/-- `create_translated_srt`, as the content it writes to the output file. -/
def create_translated_srt (subtitles : List Subtitle) : List Char :=
  (subtitles.map subtitleBlockOut).flatten

/-! ### Translation adapter (translator.py) -/

/-- Outcome of one HTTP call: a `requests` transport error (connection
failure, timeout, or a `raise_for_status` HTTP error), or a decoded JSON
response. -/
inductive Transport (α : Type) where
  | error (msg : String)
  | ok (response : α)
deriving DecidableEq, Repr

/-- The JSON body a LibreTranslate call yields; `translatedText` is
`result.get("translatedText", …)`, absent when the key is missing. -/
structure LibreResponse where
  translatedText : Option (List Char)
deriving DecidableEq, Repr

/-- The JSON body a MyMemory call yields.  `translatedText` of `none`
models a missing `responseData`/`translatedText` key (the resulting
`KeyError` is swallowed by the bare `except`). -/
structure MyMemoryResponse where
  responseStatus : Int
  translatedText : Option (List Char)
deriving DecidableEq, Repr

/-- The primary translation capability: text, target code, source code. -/
def LibreCap : Type := List Char → String → String → Transport LibreResponse

/-- The fallback translation capability (MyMemory). -/
def MyMemoryCap : Type := List Char → String → String → Transport MyMemoryResponse

/-- `translate_text_fallback`: queries MyMemory on the first 500 characters
of the text; any error (transport or missing key) degrades to the original
text.  Total by construction: no exception escapes. -/
def translate_text_fallback (cap : MyMemoryCap) (text : List Char)
    (target_lang source_lang : String) : List Char :=
  match cap (text.take 500) target_lang source_lang with
  | .error _ => text
  | .ok result =>
    if result.responseStatus = 200 then
      match result.translatedText with
      | some t => t
      | none => text
    else text

/-- `translate_text_libretranslate`: tries the primary capability; a
transport error falls through to `translate_text_fallback`; a successful
response with the `translatedText` key missing degrades to the original
text.  Total by construction: no exception escapes the adapter. -/
def translate_text_libretranslate (primary : LibreCap) (fallback : MyMemoryCap)
    (text : List Char) (target_lang source_lang : String) : List Char :=
  match primary text target_lang source_lang with
  | .error _ => translate_text_fallback fallback text target_lang source_lang
  | .ok result => result.translatedText.getD text

/-- `LANGUAGE_MAP` of translator.py: the mapping `translate_srt` consults. -/
def LANGUAGE_MAP : List (String × String) :=
  [("Hebrew", "he"), ("Spanish", "es"), ("French", "fr"), ("German", "de"),
   ("Italian", "it"), ("Portuguese", "pt"), ("Arabic", "ar"), ("Russian", "ru"),
   ("Chinese", "zh"), ("Japanese", "ja")]

/-- `get_available_languages` of utils.py. -/
def get_available_languages : List (String × String) :=
  [("Hebrew", "he"), ("Spanish", "es"), ("French", "fr"), ("German", "de"),
   ("Italian", "it"), ("Portuguese", "pt"), ("Arabic", "ar"), ("Russian", "ru"),
   ("Chinese", "zh"), ("Japanese", "ja"), ("Korean", "ko"), ("Dutch", "nl"),
   ("Swedish", "sv"), ("Norwegian", "no"), ("Danish", "da")]

/-- Index of the first `'>'` in a string, if any. -/
def gtIndex : List Char → Option Nat
  | [] => none
  | c :: rest => if c = '>' then some 0 else (gtIndex rest).map (· + 1)

/-- Recursion core of the `re.sub(r'<[^>]+>', '', …)` model; the fuel
argument only makes the recursion structural and is irrelevant once it is
at least the input's length. -/
def smGo : Nat → List Char → List Char
  | _, [] => []
  | 0, l => l
  | fuel + 1, c :: rest =>
    if c = '<' then
      match gtIndex rest with
      | some (k + 1) => smGo fuel (rest.drop (k + 2))
      | _ => c :: smGo fuel rest
    else c :: smGo fuel rest

/-- `re.sub(r'<[^>]+>', '', text)`: delete every leftmost, non-overlapping
`<…>` run with a non-empty interior. -/
def stripMarkup (l : List Char) : List Char := smGo l.length l

/-- The errors `translate_srt` raises (both are `ValueError` in the source;
the spec calls them `UnsupportedLanguage` and `EmptyInput`). -/
inductive TranslateError where
  | unsupportedLanguage (language : String)
  | emptyInput
deriving DecidableEq, Repr

/-- The per-cue body of `translate_srt`'s loop: strip inline markup and
whitespace; translate only when something is left, otherwise keep the
original text; index and timestamp are copied verbatim. -/
def translateCue (primary : LibreCap) (fallback : MyMemoryCap)
    (target_lang_code : String) (s : Subtitle) : Subtitle :=
  let clean_text := pyStrip (stripMarkup s.text)
  let translated_text :=
    if clean_text.isEmpty then s.text
    else translate_text_libretranslate primary fallback clean_text target_lang_code "en"
  ⟨s.index, s.timestamp, translated_text⟩

/-- `translate_srt`, applied to the SRT file's content; the result is the
cue list written to the output file. -/
def translate_srt (primary : LibreCap) (fallback : MyMemoryCap)
    (content : List Char) (target_language : String) :
    Except TranslateError (List Subtitle) :=
  match LANGUAGE_MAP.lookup target_language with
  | none => .error (.unsupportedLanguage target_language)
  | some target_lang_code =>
    let subtitles := parse_srt content
    if subtitles.isEmpty then .error .emptyInput
    else .ok (subtitles.map (translateCue primary fallback target_lang_code))

/-- `batch_translate_srt`: translate to each language in turn, catching and
skipping any failure; the Python dict of results is modelled as the
association list of `(language, cues)` pairs in insertion order. -/
def batch_translate_srt (primary : LibreCap) (fallback : MyMemoryCap)
    (content : List Char) : List String → List (String × List Subtitle)
  | [] => []
  | language :: rest =>
    match translate_srt primary fallback content language with
    | .ok translated =>
      (language, translated) :: batch_translate_srt primary fallback content rest
    | .error _ => batch_translate_srt primary fallback content rest

/-! ### Transcription adapter (transcriber.py) -/

/-- Python's `a % b` on numbers (sign of the divisor); for `b > 0` the
result lies in `[0, b)` whatever the sign of `a`. -/
def pyMod (a b : ℚ) : ℚ := a - b * ⌊a / b⌋

/-- Left-pad a digit string with `'0'` to `width`, as `f"{n:0Nd}"` does for
non-negative `n`. -/
def padZero (width : Nat) (s : List Char) : List Char :=
  List.replicate (width - s.length) '0' ++ s

/-- `format_srt_timestamp`: seconds to `HH:MM:SS,mmm`.  Python `float`
arithmetic is modelled exactly over `ℚ`; `int(x)` coincides with `⌊x⌋` on
every value it is applied to here (`seconds // 3600` and
`(seconds % 3600) // 60` are already floors, and `seconds % 60` and
`(seconds % 1) * 1000` are non-negative). -/
def format_srt_timestamp (seconds : ℚ) : List Char :=
  let hours : Int := ⌊seconds / 3600⌋
  let minutes : Int := ⌊pyMod seconds 3600 / 60⌋
  let secs : Int := ⌊pyMod seconds 60⌋
  let millisecs : Int := ⌊pyMod seconds 1 * 1000⌋
  padZero 2 (intStr hours) ++ ':' ::
    (padZero 2 (intStr minutes) ++ ':' ::
      (padZero 2 (intStr secs) ++ ',' :: padZero 3 (intStr millisecs)))

/-- A maximal run of ASCII digits read as a natural number. -/
def chunkNat? (l : List Char) : Option Nat :=
  if l.isEmpty then none
  else if l.all Char.isDigit then some (digitsVal l) else none

/-- Modelled from the spec: the source has no inverse of
`format_srt_timestamp` (§4.1 "`format_timestamp(seconds: float) -> string`
and its inverse must round-trip"), so the inverse is modelled from the
spec's words: read `HH:MM:SS,mmm` back into seconds. -/
def parse_srt_timestamp (s : List Char) : Option ℚ :=
  match splitOnChar ':' s with
  | [hh, mm, rest] =>
    match splitOnChar ',' rest with
    | [ss, mmm] =>
      match chunkNat? hh, chunkNat? mm, chunkNat? ss, chunkNat? mmm with
      | some h, some m, some sec, some ms =>
        some ((h : ℚ) * 3600 + (m : ℚ) * 60 + (sec : ℚ) + (ms : ℚ) / 1000)
      | _, _, _, _ => none
    | _ => none
  | _ => none

/-- Transcription failures.  The source raises `ValueError` for a missing
key and wraps every capability error as `Exception("Transcription failed:
…")`; `inputTooLarge` is the distinct kind the spec's taxonomy (§7) names
for the 25 MB ceiling — the source never constructs it. -/
inductive TranscribeError where
  | valueError (msg : String)
  | transcriptionFailed (msg : String)
  | inputTooLarge
deriving DecidableEq, Repr

/-- The external speech-to-text capability: audio path to SRT text, or a
capability/transport error message. -/
def WhisperCap : Type := List Char → Except String (List Char)

/-- `transcribe_video`: missing API key raises `ValueError`; any capability
error is wrapped as `Transcription failed: …`; a success returns the SRT
text (written to `transcription.srt`). -/
def transcribe_video (cap : WhisperCap) (api_key : Option String)
    (audio_path : List Char) : Except TranscribeError (List Char) :=
  match api_key with
  | none => .error (.valueError "OpenAI API key not found in environment variables")
  | some _ =>
    match cap audio_path with
    | .ok transcript => .ok transcript
    | .error e => .error (.transcriptionFailed ("Transcription failed: " ++ e))

/-- The file system as `validate_audio_file` observes it: each path either
has a byte size or does not exist. -/
structure FileSystem where
  size? : List Char → Option Nat

/-- The part of a path after its last `'/'` (`os.path` basename on posix). -/
def afterLastSlash : List Char → List Char
  | [] => []
  | c :: rest =>
    if c = '/' then (if '/' ∈ rest then afterLastSlash rest else rest)
    else if '/' ∈ rest then afterLastSlash rest
    else c :: rest

/-- The extension part of a basename whose leading dots have been removed:
from the last `'.'`, if any. -/
def fromLastDot : List Char → List Char
  | [] => []
  | c :: rest =>
    if c = '.' then if '.' ∈ rest then fromLastDot rest else c :: rest
    else fromLastDot rest

/-- `os.path.splitext(p)[1]`: the extension starts at the last dot of the
basename, unless that dot belongs to the basename's leading-dot run. -/
def splitextExt (p : List Char) : List Char :=
  fromLastDot ((afterLastSlash p).dropWhile (· = '.'))

/-- The `valid_extensions` list of `validate_audio_file`. -/
def valid_extensions : List (List Char) :=
  [".mp3".toList, ".wav".toList, ".m4a".toList, ".flac".toList, ".ogg".toList]

/-- Python `s.lower()` (ASCII range; no input here uses other letters). -/
def pyLower (s : List Char) : List Char := s.map Char.toLower

/-- `validate_audio_file`: exists, at most 25 MB, extension in the
allow-list. -/
def validate_audio_file (fs : FileSystem) (audio_path : List Char) : Bool :=
  match fs.size? audio_path with
  | none => false
  | some file_size =>
    if file_size > 25 * 1024 * 1024 then false
    else decide (pyLower (splitextExt audio_path) ∈ valid_extensions)

/-! ### Render adapter (subtitle_burner.py) -/

/-- The `position_map` dict of `burn_subtitles_to_video`. -/
def position_map : List (String × String) :=
  [("bottom", "Alignment=2"), ("top", "Alignment=8"), ("center", "Alignment=5")]

/-- `position_map.get(position, "Alignment=2")`. -/
def alignment_of (position : String) : String :=
  (position_map.lookup position).getD "Alignment=2"

/-- The `color_map` dict of `burn_subtitles_to_video`. -/
def color_map : List (List Char × String) :=
  [("white".toList, "&Hffffff&"), ("yellow".toList, "&H00ffff&"),
   ("red".toList, "&H0000ff&"), ("blue".toList, "&Hff0000&"),
   ("green".toList, "&H00ff00&"), ("black".toList, "&H000000&")]

/-- `color_map.get(font_color.lower(), "&Hffffff&")`. -/
def color_code_of (font_color : List Char) : String :=
  (color_map.lookup (pyLower font_color)).getD "&Hffffff&"

/-! ### Well-formedness for the serialize/parse round trip (claim C3) -/

/-- A line that contains at least one non-whitespace character (so the
blank-line splitter can never cut through it). -/
def solidLine (l : List Char) : Bool := l.any (fun c => !(pySpace c))

/-- The serialized block of a cue without its trailing blank line:
`index\ntimestamp\ntext`. -/
def subtitleBlockCore (s : Subtitle) : List Char :=
  intStr s.index ++ '\n' :: (s.timestamp ++ '\n' :: s.text)

/-- Concatenation of blocks with one blank line between consecutive blocks
(what stripping the serialized file leaves). -/
def blocksJoin : List (List Char) → List Char
  | [] => []
  | [b] => b
  | b :: bs => b ++ '\n' :: '\n' :: blocksJoin bs

/-- A well-formed cue, as the spec's round-trip property needs: positive
index; a timestamp line that has no newline and is not whitespace-only;
text whose every line has a non-whitespace character and that does not end
in whitespace.  (A cue outside these bounds — e.g. whitespace-only text —
cannot survive the source's `strip()`/blank-line splitting.) -/
def wellFormedCue (s : Subtitle) : Bool :=
  decide (0 < s.index) &&
  s.timestamp.all (fun c => !(c = '\n')) && solidLine s.timestamp &&
  (splitLines s.text).all solidLine &&
  (match s.text.getLast? with
    | some c => !(pySpace c)
    | none => false)

/-! ### Spec-side predicate for claim C4 -/

/-- Split a string at the first occurrence of the SRT arrow `" --> "`. -/
def splitArrow : List Char → Option (List Char × List Char)
  | [] => none
  | c :: rest =>
    if (c :: rest).take 5 = " --> ".toList then some ([], (c :: rest).drop 5)
    else
      match splitArrow rest with
      | some (a, b) => some (c :: a, b)
      | none => none

/-- Modelled from the spec: "line 2 matches a `start --> end` timestamp
pair" (§4.1) — the source's parser has no such check, so the predicate the
claim asserts is written out from the spec's words to be compared with the
parser's actual behaviour. -/
def spec_timestamp_pair (l : List Char) : Bool :=
  match splitArrow l with
  | some (a, b) => (parse_srt_timestamp a).isSome && (parse_srt_timestamp b).isSome
  | none => false

/-! ## Theorems -/

/-- C1: `translate_text` tries the primary capability, falls through to the
single fallback capability on any transport error, and when both fail it
returns the original input text unchanged; in particular with capabilities
that always raise a transport error, `translate_text("Hello", "es", "en")`
returns `"Hello"`.  The adapter never raises past its boundary: it is a
total function into `List Char` — every exception branch of the source is
a `match` arm of the embedding. -/
theorem C1_translate_text_degrades (primary : LibreCap) (fallback : MyMemoryCap)
    (text : List Char) (target_lang source_lang : String) :
    (∀ e, primary text target_lang source_lang = .error e →
      translate_text_libretranslate primary fallback text target_lang source_lang =
        translate_text_fallback fallback text target_lang source_lang) ∧
    (∀ e e', primary text target_lang source_lang = .error e →
      fallback (text.take 500) target_lang source_lang = .error e' →
      translate_text_libretranslate primary fallback text target_lang source_lang = text) ∧
    translate_text_libretranslate (fun _ _ _ => .error "connection error")
      (fun _ _ _ => .error "connection error") "Hello".toList "es" "en" = "Hello".toList := by
  refine ⟨?_, ?_, rfl⟩
  · intro e h
    simp only [translate_text_libretranslate, h]
  · intro e e' h h'
    simp only [translate_text_libretranslate, translate_text_fallback, h, h']

/-- Witness for C1 at a concrete input: both capabilities fail with a
transport error and the adapter returns the input text unchanged. -/
theorem C1_translate_text_degrades_witness :
    ((fun _ _ _ => .error "boom" : LibreCap) "Hi".toList "es" "en" =
      Transport.error "boom") ∧
    translate_text_libretranslate (fun _ _ _ => .error "boom")
      (fun _ _ _ => .error "zap") "Hi".toList "es" "en" = "Hi".toList :=
  ⟨rfl, (C1_translate_text_degrades _ _ "Hi".toList "es" "en").2.1 "boom" "zap" rfl rfl⟩

/-- C2: batch translation processes each language independently: a language
whose translation fails is excluded from the result map, every other
language keeps exactly the result its own translation produces, and that
result does not depend on which other languages are in the batch. -/
theorem C2_batch_translate_isolates_failures (primary : LibreCap) (fallback : MyMemoryCap)
    (content : List Char) (target_languages : List String) (language : String) :
    (∀ translated, language ∈ target_languages →
      translate_srt primary fallback content language = .ok translated →
      (batch_translate_srt primary fallback content target_languages).lookup language
        = some translated) ∧
    (∀ e, translate_srt primary fallback content language = .error e →
      (batch_translate_srt primary fallback content target_languages).lookup language
        = none) := by
  induction target_languages with
  | nil =>
    exact ⟨fun _ h => absurd h (List.not_mem_nil _), fun _ _ => rfl⟩
  | cons l rest ih =>
    cases htr : translate_srt primary fallback content l with
    | ok tr =>
      constructor
      · intro translated hmem hok
        by_cases hl : language = l
        · subst hl
          rw [htr] at hok
          cases hok
          simp [batch_translate_srt, htr, List.lookup]
        · rcases List.mem_cons.mp hmem with h | hmem'
          · exact absurd h hl
          · simpa [batch_translate_srt, htr, List.lookup, beq_eq_false_iff_ne.mpr hl]
              using ih.1 translated hmem' hok
      · intro e herr
        have hl : language ≠ l := by
          intro h
          rw [h, htr] at herr
          cases herr
        simpa [batch_translate_srt, htr, List.lookup, beq_eq_false_iff_ne.mpr hl]
          using ih.2 e herr
    | error e0 =>
      constructor
      · intro translated hmem hok
        by_cases hl : language = l
        · rw [hl, htr] at hok
          cases hok
        · rcases List.mem_cons.mp hmem with h | hmem'
          · exact absurd h hl
          · simpa [batch_translate_srt, htr] using ih.1 translated hmem' hok
      · intro e herr
        simpa [batch_translate_srt, htr] using ih.2 e herr

/-- Witness for C2 at a concrete input: languages Spanish, Klingon, French,
where Klingon is unsupported; Spanish and French are both present with the
degraded (pass-through) cues, Klingon is absent. -/
theorem C2_batch_translate_isolates_failures_witness :
    ("Spanish" ∈ ["Spanish", "Klingon", "French"] ∧
      translate_srt (fun _ _ _ => .error "down") (fun _ _ _ => .error "down")
        "1\n00:00:01,000 --> 00:00:02,000\nHello".toList "Spanish" =
        .ok [⟨1, "00:00:01,000 --> 00:00:02,000".toList, "Hello".toList⟩]) ∧
    (batch_translate_srt (fun _ _ _ => .error "down") (fun _ _ _ => .error "down")
        "1\n00:00:01,000 --> 00:00:02,000\nHello".toList
        ["Spanish", "Klingon", "French"]).lookup "Spanish" =
      some [⟨1, "00:00:01,000 --> 00:00:02,000".toList, "Hello".toList⟩] :=
  ⟨⟨by decide, by rfl⟩,
    (C2_batch_translate_isolates_failures _ _ _ ["Spanish", "Klingon", "French"]
      "Spanish").1 _ (by decide) (by rfl)⟩

/-- C4 (counterexample): the parser does not validate the timestamp line
and does not require the index to be positive: a block whose second line
matches no `start --> end` pair and whose first line is the negative
integer `-3` is still accepted as a cue. -/
theorem C4_parser_counterexample :
    parse_srt "-3\nnot a timestamp\nhello".toList =
      [⟨-3, "not a timestamp".toList, "hello".toList⟩] ∧
    spec_timestamp_pair "not a timestamp".toList = false ∧
    ¬ (0 < (-3 : Int)) :=
  ⟨rfl, rfl, by decide⟩

/-- C4 (amended): the SRT parser splits input on blank-line boundaries and
accepts a block as a cue exactly when it has at least 3 lines and line 1
parses as an integer (sign allowed; the timestamp line is not validated);
every malformed block is silently skipped, so an input with one malformed
block (non-numeric index) and two well-formed blocks parses to exactly
2 cues. -/
theorem C4_lenient_parse :
    parse_srt ("1\n00:00:01,000 --> 00:00:02,000\nHello\n\nabc\n00:00:03,000 --> 00:00:04,000\nBad\n\n3\n00:00:05,000 --> 00:00:06,000\nWorld".toList) =
      [⟨1, "00:00:01,000 --> 00:00:02,000".toList, "Hello".toList⟩,
       ⟨3, "00:00:05,000 --> 00:00:06,000".toList, "World".toList⟩] ∧
    pyInt? "abc".toList = none ∧
    spec_timestamp_pair "00:00:03,000 --> 00:00:04,000".toList = true :=
  ⟨rfl, rfl, rfl⟩

/-- C5 (counterexample): parsing a whitespace-only subtitle text does not
fail — `parse_srt_file` returns an empty cue list. -/
theorem C5_parse_counterexample :
    parse_srt "   \n  ".toList = [] :=
  rfl

/-- C5 (amended): `parse_srt_file` returns an empty Cue Set on blank or
whitespace-only input (or any input without a valid block); it is
`translate_srt` that then fails with `EmptyInput` (the `ValueError`
"No subtitles found in SRT file"), for any supported target language,
before any translation is attempted. -/
theorem C5_empty_input (primary : LibreCap) (fallback : MyMemoryCap)
    (content : List Char) (target_language code : String)
    (hcode : LANGUAGE_MAP.lookup target_language = some code)
    (hparse : parse_srt content = []) :
    translate_srt primary fallback content target_language = .error .emptyInput := by
  simp [translate_srt, hcode, hparse]

/-- Witness for C5 at a concrete input: whitespace-only content and the
supported language Spanish. -/
theorem C5_empty_input_witness :
    (LANGUAGE_MAP.lookup "Spanish" = some "es" ∧ parse_srt "   \n  ".toList = []) ∧
    translate_srt (fun _ _ _ => .error "down") (fun _ _ _ => .error "down")
      "   \n  ".toList "Spanish" = .error .emptyInput :=
  ⟨⟨rfl, rfl⟩, C5_empty_input _ _ _ "Spanish" "es" rfl rfl⟩

/-- C6 (code bug): `utils.get_available_languages` documents Korean, Dutch,
Swedish, Norwegian and Danish as available translation languages, but
`translator.LANGUAGE_MAP` — the mapping `translate_srt` actually consults —
lacks all five, so `translate_srt` rejects Korean with
`UnsupportedLanguage`; a language outside the mapping (Klingon) is likewise
rejected before any translation. -/
theorem C6_language_maps_out_of_sync :
    translate_srt (fun _ _ _ => .error "down") (fun _ _ _ => .error "down")
      "1\n00:00:01,000 --> 00:00:02,000\nHello".toList "Korean"
      = .error (.unsupportedLanguage "Korean") ∧
    get_available_languages.lookup "Korean" = some "ko" ∧
    LANGUAGE_MAP.lookup "Korean" = none ∧
    (["Korean", "Dutch", "Swedish", "Norwegian", "Danish"].all
      (fun l => (get_available_languages.lookup l).isSome &&
        (LANGUAGE_MAP.lookup l).isNone)) = true ∧
    translate_srt (fun _ _ _ => .error "down") (fun _ _ _ => .error "down")
      "1\n00:00:01,000 --> 00:00:02,000\nHello".toList "Klingon"
      = .error (.unsupportedLanguage "Klingon") :=
  ⟨rfl, rfl, rfl, rfl, rfl⟩

/-- C8: the burn-in style mapping sends `position="top"` to an alignment
code distinct from `position="bottom"`, defaults any other position to the
bottom alignment, and maps any color name the (case-insensitive) palette
lookup does not recognize to exactly white's color code. -/
theorem C8_style_mapping :
    alignment_of "top" = "Alignment=8" ∧
    alignment_of "bottom" = "Alignment=2" ∧
    alignment_of "top" ≠ alignment_of "bottom" ∧
    (∀ position : String, position ≠ "bottom" → position ≠ "top" →
      position ≠ "center" → alignment_of position = alignment_of "bottom") ∧
    color_code_of "white".toList = "&Hffffff&" ∧
    (∀ font_color : List Char, color_map.lookup (pyLower font_color) = none →
      color_code_of font_color = color_code_of "white".toList) := by
  refine ⟨rfl, rfl, by decide, ?_, rfl, ?_⟩
  · intro p h1 h2 h3
    simp [alignment_of, position_map, List.lookup, beq_eq_false_iff_ne.mpr h1,
      beq_eq_false_iff_ne.mpr h2, beq_eq_false_iff_ne.mpr h3]
  · intro c h
    simp [color_code_of, h]
    rfl

/-- Witness for C8 at concrete inputs: the position `"middle"` and the
color `"chartreuse"`. -/
theorem C8_style_mapping_witness :
    ("middle" ≠ "bottom" ∧ color_map.lookup (pyLower "chartreuse".toList) = none) ∧
    alignment_of "middle" = alignment_of "bottom" ∧
    color_code_of "chartreuse".toList = color_code_of "white".toList :=
  ⟨⟨by decide, rfl⟩,
    C8_style_mapping.2.2.2.1 "middle" (by decide) (by decide) (by decide),
    C8_style_mapping.2.2.2.2.2 "chartreuse".toList rfl⟩

/-- C9 (counterexample): with a capability that rejects oversize audio the
way the external service does, the adapter wraps the failure as the
generic `Transcription failed: …` error — it has no distinct
`InputTooLarge` failure for input over the 25 MB ceiling. -/
theorem C9_transcribe_counterexample :
    transcribe_video (fun _ => .error "Maximum content size limit (26214400) exceeded")
      (some "key") "big.mp3".toList
      = .error (.transcriptionFailed
          "Transcription failed: Maximum content size limit (26214400) exceeded") ∧
    transcribe_video (fun _ => .error "Maximum content size limit (26214400) exceeded")
      (some "key") "big.mp3".toList
      ≠ .error .inputTooLarge :=
  ⟨rfl, fun h => TranscribeError.noConfusion (Except.error.inj h)⟩

/-- C9 (amended): oversize input surfaces through `transcribe_video` only
as a `TranscriptionFailed` wrapping the capability's message (the adapter
never produces a distinct `InputTooLarge`); the pre-check
`validate_audio_file` returns `True` exactly when the file exists, is at
most 25 MB, and has an accepted audio extension, and `False` otherwise. -/
theorem C9_validate_and_wrap :
    (∀ (fs : FileSystem) (audio_path : List Char),
      validate_audio_file fs audio_path = true ↔
        ∃ n, fs.size? audio_path = some n ∧ n ≤ 25 * 1024 * 1024 ∧
          pyLower (splitextExt audio_path) ∈ valid_extensions) ∧
    (∀ (cap : WhisperCap) (key : String) (audio_path : List Char) (e : String),
      cap audio_path = .error e →
        transcribe_video cap (some key) audio_path =
          .error (.transcriptionFailed ("Transcription failed: " ++ e))) := by
  constructor
  · intro fs p
    unfold validate_audio_file
    cases h : fs.size? p with
    | none => simp
    | some n =>
      by_cases hn : n > 25 * 1024 * 1024
      · simp only [if_pos hn]
        constructor
        · intro hfalse
          cases hfalse
        · rintro ⟨m, hm, hle, -⟩
          have hnm : n = m := Option.some.inj hm
          exact absurd hle (by omega)
      · simp only [if_neg hn]
        constructor
        · intro hmem
          exact ⟨n, rfl, by omega, of_decide_eq_true hmem⟩
        · rintro ⟨m, hm, -, hmem⟩
          exact decide_eq_true hmem
  · intro cap key p e hcap
    simp [transcribe_video, hcap]

/-- Witness for C9 at concrete inputs: an existing small `.mp3` validates;
a capability transport error is wrapped verbatim. -/
theorem C9_validate_and_wrap_witness :
    validate_audio_file ⟨fun p => if p = "song.mp3".toList then some 1000 else none⟩
      "song.mp3".toList = true ∧
    ((fun _ => .error "socket closed" : WhisperCap) "a.mp3".toList = .error "socket closed" ∧
      transcribe_video (fun _ => .error "socket closed") (some "key") "a.mp3".toList =
        .error (.transcriptionFailed "Transcription failed: socket closed")) :=
  ⟨(C9_validate_and_wrap.1 _ _).mpr ⟨1000, rfl, by norm_num, by decide⟩,
    rfl, C9_validate_and_wrap.2 _ "key" "a.mp3".toList "socket closed" rfl⟩

/-- C10: a successful `translate_srt` returns exactly as many cues as it
parsed, in the same order, with each cue's index and timestamp line copied
verbatim — only the text may change; and a cue whose text is empty after
stripping inline markup keeps its original text verbatim (such text is
never sent to the translation capability: its branch of the loop does not
mention the capabilities, so its result cannot depend on them). -/
theorem C10_translate_preserves_frame (primary : LibreCap) (fallback : MyMemoryCap)
    (content : List Char) (target_language : String) (out : List Subtitle)
    (h : translate_srt primary fallback content target_language = .ok out) :
    out.length = (parse_srt content).length ∧
    ∀ i (hi : i < out.length) (hp : i < (parse_srt content).length),
      (out.get ⟨i, hi⟩).index = ((parse_srt content).get ⟨i, hp⟩).index ∧
      (out.get ⟨i, hi⟩).timestamp = ((parse_srt content).get ⟨i, hp⟩).timestamp ∧
      (pyStrip (stripMarkup (((parse_srt content).get ⟨i, hp⟩).text)) = [] →
        (out.get ⟨i, hi⟩).text = ((parse_srt content).get ⟨i, hp⟩).text) := by
  cases hl : LANGUAGE_MAP.lookup target_language with
  | none =>
    simp only [translate_srt, hl] at h
    exact Except.noConfusion h
  | some code =>
    simp only [translate_srt, hl] at h
    by_cases he : (parse_srt content).isEmpty
    · rw [if_pos he] at h; cases h
    · rw [if_neg he] at h
      have hout : out = (parse_srt content).map (translateCue primary fallback code) :=
        (Except.ok.inj h).symm
      subst hout
      refine ⟨List.length_map _ _, ?_⟩
      intro i hi hp
      simp only [List.get_eq_getElem, List.getElem_map]
      refine ⟨rfl, rfl, ?_⟩
      intro hclean
      simp only [translateCue]
      rw [hclean]
      simp

/-- Witness for C10 at a concrete input: two cues, the first consisting
only of markup (kept verbatim, untranslated), the second translated. -/
theorem C10_translate_preserves_frame_witness :
    translate_srt (fun _ _ _ => .ok ⟨some "Hola".toList⟩) (fun _ _ _ => .error "down")
      "1\n00:00:01,000 --> 00:00:02,000\n<i></i>\n\n2\n00:00:03,000 --> 00:00:04,000\nHello".toList
      "Spanish" =
      .ok [⟨1, "00:00:01,000 --> 00:00:02,000".toList, "<i></i>".toList⟩,
           ⟨2, "00:00:03,000 --> 00:00:04,000".toList, "Hola".toList⟩] ∧
    ([⟨1, "00:00:01,000 --> 00:00:02,000".toList, "<i></i>".toList⟩,
      ⟨2, "00:00:03,000 --> 00:00:04,000".toList, "Hola".toList⟩] : List Subtitle).length =
      (parse_srt "1\n00:00:01,000 --> 00:00:02,000\n<i></i>\n\n2\n00:00:03,000 --> 00:00:04,000\nHello".toList).length ∧
    (([⟨1, "00:00:01,000 --> 00:00:02,000".toList, "<i></i>".toList⟩,
       ⟨2, "00:00:03,000 --> 00:00:04,000".toList, "Hola".toList⟩] : List Subtitle).get
        ⟨0, by decide⟩).text =
      ((parse_srt "1\n00:00:01,000 --> 00:00:02,000\n<i></i>\n\n2\n00:00:03,000 --> 00:00:04,000\nHello".toList).get
        ⟨0, by decide⟩).text := by
  have h := C10_translate_preserves_frame (fun _ _ _ => .ok ⟨some "Hola".toList⟩)
    (fun _ _ _ => .error "down")
    "1\n00:00:01,000 --> 00:00:02,000\n<i></i>\n\n2\n00:00:03,000 --> 00:00:04,000\nHello".toList
    "Spanish"
    [⟨1, "00:00:01,000 --> 00:00:02,000".toList, "<i></i>".toList⟩,
     ⟨2, "00:00:03,000 --> 00:00:04,000".toList, "Hola".toList⟩] rfl
  exact ⟨rfl, h.1, (h.2 0 (by decide) (by decide)).2.2 rfl⟩

/-! ### Digit-string lemmas -/

theorem ndGo_succ (f n : Nat) :
    ndGo (f + 1) n =
      if n < 10 then [digitChar n] else ndGo f (n / 10) ++ [digitChar (n % 10)] :=
  rfl

theorem ndGo_irrel (n : Nat) : ∀ f g, n ≤ f → n ≤ g → ndGo (f + 1) n = ndGo (g + 1) n := by
  induction n using Nat.strong_induction_on with
  | _ n ih =>
    intro f g hf hg
    by_cases h : n < 10
    · rw [ndGo_succ f n, ndGo_succ g n, if_pos h, if_pos h]
    · have hdiv : n / 10 < n := Nat.div_lt_self (by omega) (by norm_num)
      obtain ⟨f', rfl⟩ : ∃ m, f = m + 1 := ⟨f - 1, by omega⟩
      obtain ⟨g', rfl⟩ : ∃ m, g = m + 1 := ⟨g - 1, by omega⟩
      rw [ndGo_succ (f' + 1) n, ndGo_succ (g' + 1) n, if_neg h, if_neg h,
        ih (n / 10) hdiv f' g' (by omega) (by omega)]

theorem natDigits_eq (n : Nat) :
    natDigits n = if n < 10 then [digitChar n]
      else natDigits (n / 10) ++ [digitChar (n % 10)] := by
  by_cases h : n < 10
  · rw [if_pos h]
    unfold natDigits
    rw [ndGo_succ, if_pos h]
  · rw [if_neg h]
    obtain ⟨m, rfl⟩ : ∃ m, n = m + 1 := ⟨n - 1, by omega⟩
    unfold natDigits
    rw [ndGo_succ, if_neg h,
      ndGo_irrel ((m + 1) / 10) m ((m + 1) / 10) (by omega) (le_refl _)]

/-- The ten ASCII digit characters. -/
theorem digitChar_mem (d : Nat) :
    digitChar d ∈ ['0', '1', '2', '3', '4', '5', '6', '7', '8', '9'] := by
  unfold digitChar
  split_ifs <;> decide

theorem natDigits_mem (n : Nat) :
    ∀ c ∈ natDigits n, c ∈ ['0', '1', '2', '3', '4', '5', '6', '7', '8', '9'] := by
  induction n using Nat.strong_induction_on with
  | _ n ih =>
    intro c hc
    rw [natDigits_eq] at hc
    by_cases h : n < 10
    · rw [if_pos h] at hc
      rcases List.mem_singleton.mp hc with rfl
      exact digitChar_mem n
    · rw [if_neg h] at hc
      rcases List.mem_append.mp hc with h1 | h1
      · exact ih (n / 10) (Nat.div_lt_self (by omega) (by norm_num)) c h1
      · rcases List.mem_singleton.mp h1 with rfl
        exact digitChar_mem (n % 10)

theorem natDigits_ne_nil (n : Nat) : natDigits n ≠ [] := by
  rw [natDigits_eq]
  split_ifs <;> simp

theorem digitsVal_append_singleton (xs : List Char) (c : Char) :
    digitsVal (xs ++ [c]) = digitsVal xs * 10 + digitVal c := by
  simp [digitsVal, List.foldl_append]

theorem digitVal_digitChar (d : Nat) (h : d < 10) : digitVal (digitChar d) = d := by
  interval_cases d <;> rfl

theorem digitsVal_natDigits (n : Nat) : digitsVal (natDigits n) = n := by
  induction n using Nat.strong_induction_on with
  | _ n ih =>
    rw [natDigits_eq]
    by_cases h : n < 10
    · rw [if_pos h]
      simp [digitsVal, digitVal_digitChar n h]
    · rw [if_neg h, digitsVal_append_singleton,
        ih (n / 10) (Nat.div_lt_self (by omega) (by norm_num)),
        digitVal_digitChar (n % 10) (Nat.mod_lt n (by norm_num))]
      omega

theorem natDigits_all_isDigit (n : Nat) : ∀ c ∈ natDigits n, Char.isDigit c = true := by
  intro c hc
  have hmem := natDigits_mem n c hc
  have hall : ∀ x ∈ ['0', '1', '2', '3', '4', '5', '6', '7', '8', '9'],
      Char.isDigit x = true := by decide
  exact hall c hmem

theorem natDigits_length_le (k : Nat) : ∀ n, n < 10 ^ k → (natDigits n).length ≤ max k 1 := by
  induction k with
  | zero =>
    intro n hn
    interval_cases n
    simp [natDigits, ndGo]
  | succ k ih =>
    intro n hn
    rw [natDigits_eq]
    by_cases h : n < 10
    · rw [if_pos h]
      simp [le_max_iff]
    · rw [if_neg h]
      have hdiv : n / 10 < 10 ^ k := by
        rw [Nat.div_lt_iff_lt_mul (by norm_num)]
        calc n < 10 ^ (k + 1) := hn
        _ = 10 ^ k * 10 := by ring
      have := ih (n / 10) hdiv
      simp only [List.length_append, List.length_singleton]
      have hk1 : 1 ≤ k := by
        by_contra hk
        have : k = 0 := by omega
        subst this
        simp at hn
        omega
      omega

/-! ### `pyStrip` and `splitOnChar` lemmas -/

theorem pyStrip_eq_self (l : List Char) (h : ∀ c ∈ l, pySpace c = false) :
    pyStrip l = l := by
  have h1 : List.dropWhile pySpace l = l := by
    rw [List.dropWhile_eq_self_iff]
    intro hx
    simp only [Bool.not_eq_true]
    exact h _ (List.get_mem l 0 hx)
  have h2 : List.dropWhile pySpace l.reverse = l.reverse := by
    rw [List.dropWhile_eq_self_iff]
    intro hx
    simp only [Bool.not_eq_true]
    exact h _ (List.mem_reverse.mp (List.get_mem l.reverse 0 hx))
  rw [pyStrip, h1, h2, List.reverse_reverse]

theorem splitOnChar_of_not_mem (sep : Char) (l : List Char) (h : sep ∉ l) :
    splitOnChar sep l = [l] := by
  induction l with
  | nil => rfl
  | cons c rest ih =>
    have hc : c ≠ sep := fun hcc => h (hcc ▸ List.mem_cons_self c rest)
    have hrest : sep ∉ rest := fun hr => h (List.mem_cons_of_mem c hr)
    simp [splitOnChar, hc, ih hrest]

theorem splitOnChar_append (sep : Char) (a rest : List Char) (h : sep ∉ a) :
    splitOnChar sep (a ++ sep :: rest) = a :: splitOnChar sep rest := by
  induction a with
  | nil => simp [splitOnChar]
  | cons c a ih =>
    have hc : c ≠ sep := fun hcc => h (hcc ▸ List.mem_cons_self c a)
    have ha : sep ∉ a := fun hr => h (List.mem_cons_of_mem c hr)
    simp only [List.cons_append, splitOnChar, if_neg hc, List.append_eq, ih ha]

/-! ### Python modulo lemmas -/

theorem pyMod_nonneg (a b : ℚ) (hb : 0 < b) : 0 ≤ pyMod a b := by
  have h := Int.sub_floor_div_mul_nonneg a hb
  unfold pyMod
  linarith [h]

theorem pyMod_lt (a b : ℚ) (hb : 0 < b) : pyMod a b < b := by
  have h := Int.sub_floor_div_mul_lt a hb
  unfold pyMod
  linarith [h]

/-! ### Lemmas about padded digit chunks -/

theorem padZero_natDigits_mem (k n : Nat) :
    ∀ c ∈ padZero k (natDigits n),
      c ∈ ['0', '1', '2', '3', '4', '5', '6', '7', '8', '9'] := by
  intro c hc
  rcases List.mem_append.mp hc with h | h
  · rw [List.eq_of_mem_replicate h]
    decide
  · exact natDigits_mem n c h

theorem digitsVal_cons_zero (xs : List Char) : digitsVal ('0' :: xs) = digitsVal xs := rfl

theorem digitsVal_padZero (k : Nat) (ds : List Char) :
    digitsVal (List.replicate k '0' ++ ds) = digitsVal ds := by
  induction k with
  | zero => rfl
  | succ k ih => simpa [List.replicate_succ] using ih

theorem chunkNat?_padZero (k n : Nat) : chunkNat? (padZero k (natDigits n)) = some n := by
  have hne : padZero k (natDigits n) ≠ [] :=
    List.append_ne_nil_of_right_ne_nil _ (natDigits_ne_nil n)
  have hall : (padZero k (natDigits n)).all Char.isDigit = true := by
    rw [List.all_eq_true]
    intro c hc
    have hmem := padZero_natDigits_mem k n c hc
    have hd : ∀ x ∈ ['0', '1', '2', '3', '4', '5', '6', '7', '8', '9'],
        Char.isDigit x = true := by decide
    exact hd c hmem
  unfold chunkNat?
  rw [List.isEmpty_eq_false.mpr hne]
  simp only [Bool.false_eq_true, if_false, hall, if_true]
  rw [show padZero k (natDigits n) = List.replicate (k - (natDigits n).length) '0' ++
      natDigits n from rfl,
    digitsVal_padZero, digitsVal_natDigits]

theorem padZero_length (w : Nat) (s : List Char) (h : s.length ≤ w) :
    (padZero w s).length = w := by
  simp only [padZero, List.length_append, List.length_replicate]
  omega

theorem intStr_of_nonneg (i : Int) (h : 0 ≤ i) : intStr i = natDigits i.toNat := by
  unfold intStr
  rw [if_neg (not_lt.mpr h)]

theorem format_srt_timestamp_eq (s : ℚ) (h0 : 0 ≤ s) :
    format_srt_timestamp s =
      padZero 2 (natDigits (⌊s / 3600⌋.toNat)) ++ ':' ::
        (padZero 2 (natDigits (⌊pyMod s 3600 / 60⌋.toNat)) ++ ':' ::
          (padZero 2 (natDigits (⌊pyMod s 60⌋.toNat)) ++ ',' ::
            padZero 3 (natDigits (⌊pyMod s 1 * 1000⌋.toNat)))) := by
  have hH0 : (0 : Int) ≤ ⌊s / 3600⌋ :=
    Int.floor_nonneg.mpr (div_nonneg h0 (by norm_num))
  have hM0 : (0 : Int) ≤ ⌊pyMod s 3600 / 60⌋ :=
    Int.floor_nonneg.mpr (div_nonneg (pyMod_nonneg s 3600 (by norm_num)) (by norm_num))
  have hSE0 : (0 : Int) ≤ ⌊pyMod s 60⌋ :=
    Int.floor_nonneg.mpr (pyMod_nonneg s 60 (by norm_num))
  have hMS0 : (0 : Int) ≤ ⌊pyMod s 1 * 1000⌋ :=
    Int.floor_nonneg.mpr (mul_nonneg (pyMod_nonneg s 1 (by norm_num)) (by norm_num))
  simp only [format_srt_timestamp]
  rw [intStr_of_nonneg _ hH0, intStr_of_nonneg _ hM0, intStr_of_nonneg _ hSE0,
    intStr_of_nonneg _ hMS0]

theorem parse_four_chunks (h m se ms : Nat) :
    parse_srt_timestamp
      (padZero 2 (natDigits h) ++ ':' ::
        (padZero 2 (natDigits m) ++ ':' ::
          (padZero 2 (natDigits se) ++ ',' :: padZero 3 (natDigits ms)))) =
      some ((h : ℚ) * 3600 + (m : ℚ) * 60 + (se : ℚ) + (ms : ℚ) / 1000) := by
  have hnc : ∀ k n : Nat, (':' : Char) ∉ padZero k (natDigits n) := by
    intro k n hmem
    have hd := padZero_natDigits_mem k n ':' hmem
    exact absurd hd (by decide)
  have hkc : ∀ k n : Nat, (',' : Char) ∉ padZero k (natDigits n) := by
    intro k n hmem
    have hd := padZero_natDigits_mem k n ',' hmem
    exact absurd hd (by decide)
  have hco : (':' : Char) ∉ padZero 2 (natDigits se) ++ ',' :: padZero 3 (natDigits ms) := by
    intro hmem
    rcases List.mem_append.mp hmem with hx | hx
    · exact hnc _ _ hx
    · rcases List.mem_cons.mp hx with hx | hx
      · exact absurd hx (by decide)
      · exact hnc _ _ hx
  have hsplit2 : splitOnChar ',' (padZero 2 (natDigits se) ++ ',' :: padZero 3 (natDigits ms))
      = [padZero 2 (natDigits se), padZero 3 (natDigits ms)] := by
    rw [splitOnChar_append _ _ _ (hkc 2 se), splitOnChar_of_not_mem _ _ (hkc 3 ms)]
  unfold parse_srt_timestamp
  rw [splitOnChar_append _ _ _ (hnc 2 h), splitOnChar_append _ _ _ (hnc 2 m),
    splitOnChar_of_not_mem _ _ hco]
  simp only [hsplit2, chunkNat?_padZero]

/-- C7: for `0 ≤ s ≤ 359999.999` the formatted timestamp has the exact
12-character zero-padded `HH:MM:SS,mmm` shape, and parsing it back yields a
value within 1 millisecond of `s` (the format truncates to the millisecond
below).  Python `float` arithmetic is modelled exactly over `ℚ`; Python's
`int(x)` coincides with `⌊x⌋` on every value it is applied to here. -/
theorem C7_timestamp_roundtrip (s : ℚ) (h0 : 0 ≤ s) (h1 : s ≤ 359999.999) :
    (format_srt_timestamp s).length = 12 ∧
    ∃ t : ℚ, parse_srt_timestamp (format_srt_timestamp s) = some t ∧
      0 ≤ s - t ∧ s - t < 1 / 1000 := by
  have h36 : s < 360000 := lt_of_le_of_lt h1 (by norm_num)
  have hH0 : (0 : Int) ≤ ⌊s / 3600⌋ :=
    Int.floor_nonneg.mpr (div_nonneg h0 (by norm_num))
  have hH100 : ⌊s / 3600⌋ < 100 := by
    rw [Int.floor_lt]
    push_cast
    rw [div_lt_iff₀ (by norm_num : (0:ℚ) < 3600)]
    linarith
  have hpmA0 := pyMod_nonneg s 3600 (by norm_num)
  have hpmA1 := pyMod_lt s 3600 (by norm_num)
  have hM0 : (0 : Int) ≤ ⌊pyMod s 3600 / 60⌋ :=
    Int.floor_nonneg.mpr (div_nonneg hpmA0 (by norm_num))
  have hM60 : ⌊pyMod s 3600 / 60⌋ < 60 := by
    rw [Int.floor_lt]
    push_cast
    rw [div_lt_iff₀ (by norm_num : (0:ℚ) < 60)]
    linarith
  have hpmB0 := pyMod_nonneg s 60 (by norm_num)
  have hpmB1 := pyMod_lt s 60 (by norm_num)
  have hSE0 : (0 : Int) ≤ ⌊pyMod s 60⌋ := Int.floor_nonneg.mpr hpmB0
  have hSE60 : ⌊pyMod s 60⌋ < 60 := by
    rw [Int.floor_lt]
    push_cast
    linarith
  have hpmC0 := pyMod_nonneg s 1 (by norm_num)
  have hpmC1 := pyMod_lt s 1 (by norm_num)
  have hMS0 : (0 : Int) ≤ ⌊pyMod s 1 * 1000⌋ :=
    Int.floor_nonneg.mpr (mul_nonneg hpmC0 (by norm_num))
  have hMS1000 : ⌊pyMod s 1 * 1000⌋ < 1000 := by
    rw [Int.floor_lt]
    push_cast
    nlinarith
  rw [format_srt_timestamp_eq s h0]
  constructor
  · have l1 : (natDigits (⌊s / 3600⌋.toNat)).length ≤ 2 := by
      have := natDigits_length_le 2 (⌊s / 3600⌋.toNat) (by simp; omega)
      simpa using this
    have l2 : (natDigits (⌊pyMod s 3600 / 60⌋.toNat)).length ≤ 2 := by
      have := natDigits_length_le 2 (⌊pyMod s 3600 / 60⌋.toNat) (by simp; omega)
      simpa using this
    have l3 : (natDigits (⌊pyMod s 60⌋.toNat)).length ≤ 2 := by
      have := natDigits_length_le 2 (⌊pyMod s 60⌋.toNat) (by simp; omega)
      simpa using this
    have l4 : (natDigits (⌊pyMod s 1 * 1000⌋.toNat)).length ≤ 3 := by
      have := natDigits_length_le 3 (⌊pyMod s 1 * 1000⌋.toNat) (by simp; omega)
      simpa using this
    simp only [List.length_append, List.length_cons,
      padZero_length 2 _ l1, padZero_length 2 _ l2, padZero_length 2 _ l3,
      padZero_length 3 _ l4]
  · refine ⟨_, parse_four_chunks _ _ _ _, ?_, ?_⟩ <;>
    · have cH : ((⌊s / 3600⌋.toNat : ℚ)) = ((⌊s / 3600⌋ : ℤ) : ℚ) := by
        exact_mod_cast Int.toNat_of_nonneg hH0
      have cM : ((⌊pyMod s 3600 / 60⌋.toNat : ℚ)) = ((⌊pyMod s 3600 / 60⌋ : ℤ) : ℚ) := by
        exact_mod_cast Int.toNat_of_nonneg hM0
      have cSE : ((⌊pyMod s 60⌋.toNat : ℚ)) = ((⌊pyMod s 60⌋ : ℤ) : ℚ) := by
        exact_mod_cast Int.toNat_of_nonneg hSE0
      have cMS : ((⌊pyMod s 1 * 1000⌋.toNat : ℚ)) = ((⌊pyMod s 1 * 1000⌋ : ℤ) : ℚ) := by
        exact_mod_cast Int.toNat_of_nonneg hMS0
      have hMeq : (⌊pyMod s 3600 / 60⌋ : ℤ) = ⌊s / 60⌋ - 60 * ⌊s / 3600⌋ := by
        have hx : pyMod s 3600 / 60 = s / 60 - ((60 * ⌊s / 3600⌋ : ℤ) : ℚ) := by
          unfold pyMod
          push_cast
          ring
        rw [hx, Int.floor_sub_int]
      have hSEeq : (⌊pyMod s 60⌋ : ℤ) = ⌊s⌋ - 60 * ⌊s / 60⌋ := by
        have hx : pyMod s 60 = s - ((60 * ⌊s / 60⌋ : ℤ) : ℚ) := by
          unfold pyMod
          push_cast
          ring
        rw [hx, Int.floor_sub_int]
      have hfract : pyMod s 1 = Int.fract s := by
        unfold pyMod
        rw [div_one, one_mul, Int.self_sub_floor]
      have hfu : (⌊s⌋ : ℚ) = s - Int.fract s := by
        rw [← Int.self_sub_floor]
        ring
      have hfl := Int.floor_le (Int.fract s * 1000)
      have hfa := Int.lt_floor_add_one (Int.fract s * 1000)
      rw [cH, cM, cSE, cMS, hMeq, hSEeq, hfract]
      push_cast
      linarith [hfl, hfa, hfu]

/-- Witness for C7 at the concrete input `s = 3661.5` seconds. -/
theorem C7_timestamp_roundtrip_witness :
    ((0 : ℚ) ≤ 7323 / 2 ∧ (7323 / 2 : ℚ) ≤ 359999.999) ∧
    (format_srt_timestamp (7323 / 2)).length = 12 ∧
    ∃ t : ℚ, parse_srt_timestamp (format_srt_timestamp (7323 / 2)) = some t ∧
      0 ≤ (7323 / 2 : ℚ) - t ∧ (7323 / 2 : ℚ) - t < 1 / 1000 :=
  ⟨⟨by norm_num, by norm_num⟩,
    C7_timestamp_roundtrip (7323 / 2) (by norm_num) (by norm_num)⟩

/-! ### Split/join lemmas for the round trip -/

theorem splitOnChar_ne_nil (sep : Char) (l : List Char) : splitOnChar sep l ≠ [] := by
  cases l with
  | nil => simp [splitOnChar]
  | cons c rest =>
    by_cases hc : c = sep
    · simp [splitOnChar, hc]
    · simp only [splitOnChar, if_neg hc]
      cases splitOnChar sep rest <;> simp

theorem mem_splitOnChar_not_sep (sep : Char) (l : List Char) :
    ∀ p ∈ splitOnChar sep l, sep ∉ p := by
  induction l with
  | nil =>
    intro p hp
    rw [List.mem_singleton.mp hp]
    exact List.not_mem_nil sep
  | cons c rest ih =>
    intro p hp
    by_cases hc : c = sep
    · rw [splitOnChar, if_pos hc] at hp
      rcases List.mem_cons.mp hp with rfl | hp'
      · exact List.not_mem_nil sep
      · exact ih p hp'
    · rw [splitOnChar, if_neg hc] at hp
      obtain ⟨s, ss, hS⟩ := List.exists_cons_of_ne_nil (splitOnChar_ne_nil sep rest)
      rw [hS] at hp
      rcases List.mem_cons.mp hp with rfl | hp'
      · intro hmem
        rcases List.mem_cons.mp hmem with h1 | h1
        · exact hc h1.symm
        · exact ih s (hS ▸ List.mem_cons_self s ss) h1
      · exact ih p (hS ▸ List.mem_cons_of_mem s hp')

theorem joinLines_cons₂ (a b : List Char) (ls : List (List Char)) :
    joinLines (a :: b :: ls) = a ++ '\n' :: joinLines (b :: ls) := rfl

theorem splitOnChar_cons (sep c : Char) (rest : List Char) :
    splitOnChar sep (c :: rest) =
      if c = sep then [] :: splitOnChar sep rest
      else
        match splitOnChar sep rest with
        | l :: ls => (c :: l) :: ls
        | [] => [[c]] := rfl

theorem joinLines_splitOnChar (l : List Char) : joinLines (splitOnChar '\n' l) = l := by
  induction l with
  | nil => rfl
  | cons c rest ih =>
    obtain ⟨s, ss, hS⟩ := List.exists_cons_of_ne_nil (splitOnChar_ne_nil '\n' rest)
    rw [hS] at ih
    by_cases hc : c = '\n'
    · subst hc
      rw [splitOnChar_cons, if_pos rfl, hS, joinLines_cons₂, List.nil_append, ih]
    · rw [splitOnChar_cons, if_neg hc, hS]
      cases ss with
      | nil =>
        simp only [joinLines] at ih ⊢
        rw [ih]
      | cons t ts =>
        rw [joinLines_cons₂] at ih
        rw [joinLines_cons₂, List.cons_append, ih]

theorem joinLines_splitLines (l : List Char) : joinLines (splitLines l) = l :=
  joinLines_splitOnChar l

/-! ### Stepping and fuel lemmas for the blank-line splitter -/

theorem sbGo_nil (fuel : Nat) (acc : List Char) : sbGo fuel acc [] = [acc.reverse] := by
  cases fuel <;> rfl

theorem sbGo_succ_cons (fuel : Nat) (acc : List Char) (c : Char) (rest : List Char) :
    sbGo (fuel + 1) acc (c :: rest) =
      if c = '\n' then
        match afterSepCount rest with
        | some n => acc.reverse :: sbGo fuel [] (rest.drop n)
        | none => sbGo fuel (c :: acc) rest
      else sbGo fuel (c :: acc) rest := rfl

theorem sbGo_fuel_irrel_aux (k : Nat) : ∀ (l : List Char) (f g : Nat) (acc : List Char),
    l.length ≤ k → l.length ≤ f → l.length ≤ g → sbGo f acc l = sbGo g acc l := by
  induction k with
  | zero =>
    intro l f g acc h1 _ _
    have : l = [] := List.eq_nil_of_length_eq_zero (by omega)
    subst this
    rw [sbGo_nil, sbGo_nil]
  | succ k ih =>
    intro l f g acc h1 hf hg
    cases l with
    | nil => rw [sbGo_nil, sbGo_nil]
    | cons c rest =>
      simp only [List.length_cons] at h1 hf hg
      obtain ⟨f', rfl⟩ : ∃ m, f = m + 1 := ⟨f - 1, by omega⟩
      obtain ⟨g', rfl⟩ : ∃ m, g = m + 1 := ⟨g - 1, by omega⟩
      rw [sbGo_succ_cons, sbGo_succ_cons]
      by_cases hc : c = '\n'
      · rw [if_pos hc, if_pos hc]
        cases afterSepCount rest with
        | some n =>
          show acc.reverse :: sbGo f' [] (rest.drop n) =
            acc.reverse :: sbGo g' [] (rest.drop n)
          rw [ih (rest.drop n) f' g' [] (by rw [List.length_drop]; omega)
            (by rw [List.length_drop]; omega) (by rw [List.length_drop]; omega)]
        | none =>
          show sbGo f' (c :: acc) rest = sbGo g' (c :: acc) rest
          exact ih rest f' g' (c :: acc) (by omega) (by omega) (by omega)
      · rw [if_neg hc, if_neg hc]
        exact ih rest f' g' (c :: acc) (by omega) (by omega) (by omega)

theorem sbGo_fuel_irrel (l : List Char) (f g : Nat) (acc : List Char)
    (hf : l.length ≤ f) (hg : l.length ≤ g) : sbGo f acc l = sbGo g acc l :=
  sbGo_fuel_irrel_aux l.length l f g acc (le_refl _) hf hg

theorem splitBlanksAux_eq_sbGo (l : List Char) (fuel : Nat) (acc : List Char)
    (h : l.length ≤ fuel) : splitBlanksAux acc l = sbGo fuel acc l :=
  sbGo_fuel_irrel l l.length fuel acc (le_refl _) h

theorem sbGo_append (a : List Char) :
    ∀ (fuel : Nat) (acc r : List Char), '\n' ∉ a →
      sbGo (a.length + fuel) acc (a ++ r) = sbGo fuel (a.reverse ++ acc) r := by
  induction a with
  | nil =>
    intro fuel acc r _
    simp
  | cons c t ih =>
    intro fuel acc r hnl
    have hc : c ≠ '\n' := fun h => hnl (h ▸ List.mem_cons_self c t)
    have ht : '\n' ∉ t := fun h => hnl (List.mem_cons_of_mem c h)
    have hlen : (c :: t).length + fuel = (t.length + fuel) + 1 := by
      simp only [List.length_cons]
      omega
    rw [hlen, List.cons_append, sbGo_succ_cons, if_neg hc, ih fuel (c :: acc) r ht]
    simp

theorem afterSepCount_cons (c : Char) (cs : List Char) :
    afterSepCount (c :: cs) =
      if c = '\n' then
        some (match afterSepCount cs with | some n => n + 1 | none => 1)
      else if pySpace c then (afterSepCount cs).map (· + 1)
      else none := rfl

/-- The separator scan of `re.split(r'\n\s*\n', …)` fails on any string
that starts with a line holding a non-whitespace character. -/
theorem afterSepCount_of_solid (l : List Char) :
    ∀ x, '\n' ∉ l → solidLine l = true → afterSepCount (l ++ x) = none := by
  induction l with
  | nil =>
    intro x _ hs
    simp [solidLine] at hs
  | cons c t ih =>
    intro x hnl hs
    have hc : c ≠ '\n' := fun h => hnl (h ▸ List.mem_cons_self c t)
    have ht : '\n' ∉ t := fun h => hnl (List.mem_cons_of_mem c h)
    rw [List.cons_append, afterSepCount_cons, if_neg hc]
    by_cases hp : pySpace c
    · rw [if_pos hp]
      have hst : solidLine t = true := by
        simp only [solidLine, List.any_cons, hp, Bool.not_true, Bool.false_or] at hs
        exact hs
      rw [ih x ht hst]
      rfl
    · rw [if_neg hp]

theorem afterSepCount_joinLines (s : List Char) (ss : List (List Char)) (x : List Char)
    (hgood : ∀ l ∈ s :: ss, '\n' ∉ l ∧ solidLine l = true) :
    afterSepCount (joinLines (s :: ss) ++ x) = none := by
  have hs := hgood s (List.mem_cons_self s ss)
  cases ss with
  | nil => exact afterSepCount_of_solid s x hs.1 hs.2
  | cons t ts =>
    rw [joinLines_cons₂, List.append_assoc, List.cons_append]
    exact afterSepCount_of_solid s _ hs.1 hs.2

/-- The blank-line splitter leaves a newline-free-solid-lines string whole. -/
theorem splitBlanksAux_solid (ls : List (List Char)) :
    ∀ acc, ls ≠ [] → (∀ l ∈ ls, '\n' ∉ l ∧ solidLine l = true) →
      splitBlanksAux acc (joinLines ls) = [acc.reverse ++ joinLines ls] := by
  induction ls with
  | nil => intro acc h _; exact absurd rfl h
  | cons l ls ih =>
    intro acc _ hgood
    have hl := hgood l (List.mem_cons_self l ls)
    cases ls with
    | nil =>
      show splitBlanksAux acc l = [acc.reverse ++ l]
      have h1 := sbGo_append l 0 acc [] hl.1
      rw [List.append_nil] at h1
      have h2 : splitBlanksAux acc l = sbGo (l.length + 0) acc l :=
        splitBlanksAux_eq_sbGo l (l.length + 0) acc (by omega)
      rw [h2, h1, sbGo_nil]
      simp
    | cons t ts =>
      have hgt : ∀ m ∈ t :: ts, '\n' ∉ m ∧ solidLine m = true := fun m hm =>
        hgood m (List.mem_cons_of_mem l hm)
      rw [joinLines_cons₂]
      have hlen : (l ++ '\n' :: joinLines (t :: ts)).length =
          l.length + ((joinLines (t :: ts)).length + 1) := by
        simp
      have h2 : splitBlanksAux acc (l ++ '\n' :: joinLines (t :: ts)) =
          sbGo (l.length + ((joinLines (t :: ts)).length + 1)) acc
            (l ++ '\n' :: joinLines (t :: ts)) :=
        splitBlanksAux_eq_sbGo _ _ acc (by rw [hlen])
      rw [h2, sbGo_append l _ acc _ hl.1, sbGo_succ_cons, if_pos rfl]
      have hnone : afterSepCount (joinLines (t :: ts)) = none := by
        have := afterSepCount_joinLines t ts [] hgt
        rwa [List.append_nil] at this
      rw [hnone]
      show sbGo (joinLines (t :: ts)).length ('\n' :: (l.reverse ++ acc))
        (joinLines (t :: ts)) = _
      rw [show sbGo (joinLines (t :: ts)).length ('\n' :: (l.reverse ++ acc))
          (joinLines (t :: ts)) =
          splitBlanksAux ('\n' :: (l.reverse ++ acc)) (joinLines (t :: ts)) from rfl]
      rw [ih ('\n' :: (l.reverse ++ acc)) (List.cons_ne_nil t ts) hgt]
      simp

/-- The blank-line splitter cuts exactly at a `\n\n` separator that follows
a block of solid newline-free lines, when no separator match starts right
after it. -/
theorem splitBlanksAux_block_sep (ls : List (List Char)) :
    ∀ acc r, ls ≠ [] → (∀ l ∈ ls, '\n' ∉ l ∧ solidLine l = true) →
      afterSepCount r = none →
      splitBlanksAux acc (joinLines ls ++ '\n' :: '\n' :: r) =
        (acc.reverse ++ joinLines ls) :: splitBlanksAux [] r := by
  induction ls with
  | nil => intro acc r h _ _; exact absurd rfl h
  | cons l ls ih =>
    intro acc r _ hgood hr
    have hl := hgood l (List.mem_cons_self l ls)
    cases ls with
    | nil =>
      show splitBlanksAux acc (l ++ '\n' :: '\n' :: r) = (acc.reverse ++ l) :: _
      have h2 : splitBlanksAux acc (l ++ '\n' :: '\n' :: r) =
          sbGo (l.length + (r.length + 2)) acc (l ++ '\n' :: '\n' :: r) :=
        splitBlanksAux_eq_sbGo _ _ acc (by simp)
      rw [h2, sbGo_append l _ acc _ hl.1]
      rw [show r.length + 2 = (r.length + 1) + 1 from rfl, sbGo_succ_cons, if_pos rfl]
      have hsep : afterSepCount ('\n' :: r) = some 1 := by
        rw [afterSepCount_cons, if_pos rfl, hr]
      rw [hsep]
      show (l.reverse ++ acc).reverse :: sbGo (r.length + 1) [] (('\n' :: r).drop 1) = _
      rw [show ('\n' :: r).drop 1 = r by simp]
      rw [← splitBlanksAux_eq_sbGo r (r.length + 1) [] (by omega)]
      simp
    | cons t ts =>
      have hgt : ∀ m ∈ t :: ts, '\n' ∉ m ∧ solidLine m = true := fun m hm =>
        hgood m (List.mem_cons_of_mem l hm)
      rw [joinLines_cons₂, List.append_assoc, List.cons_append]
      have h2 : splitBlanksAux acc
          (l ++ '\n' :: (joinLines (t :: ts) ++ '\n' :: '\n' :: r)) =
          sbGo (l.length + ((joinLines (t :: ts) ++ '\n' :: '\n' :: r).length + 1)) acc
            (l ++ '\n' :: (joinLines (t :: ts) ++ '\n' :: '\n' :: r)) :=
        splitBlanksAux_eq_sbGo _ _ acc (by simp)
      rw [h2, sbGo_append l _ acc _ hl.1, sbGo_succ_cons, if_pos rfl]
      rw [afterSepCount_joinLines t ts ('\n' :: '\n' :: r) hgt]
      show sbGo (joinLines (t :: ts) ++ '\n' :: '\n' :: r).length
        ('\n' :: (l.reverse ++ acc)) (joinLines (t :: ts) ++ '\n' :: '\n' :: r) = _
      rw [show sbGo (joinLines (t :: ts) ++ '\n' :: '\n' :: r).length
          ('\n' :: (l.reverse ++ acc)) (joinLines (t :: ts) ++ '\n' :: '\n' :: r) =
          splitBlanksAux ('\n' :: (l.reverse ++ acc))
            (joinLines (t :: ts) ++ '\n' :: '\n' :: r) from rfl]
      rw [ih ('\n' :: (l.reverse ++ acc)) r (List.cons_ne_nil t ts) hgt hr]
      simp

/-! ### Per-block lemmas for the round trip -/

theorem digit_mem_facts :
    ∀ c ∈ ['0', '1', '2', '3', '4', '5', '6', '7', '8', '9'],
      pySpace c = false ∧ c ≠ '\n' ∧ c ≠ '+' ∧ c ≠ '-' ∧ Char.isDigit c = true := by
  decide

theorem pyStrip_eq_self_of_ends (l : List Char) (hne : l ≠ [])
    (h1 : ∀ c, l.head? = some c → pySpace c = false)
    (h2 : ∀ c, l.getLast? = some c → pySpace c = false) :
    pyStrip l = l := by
  obtain ⟨c, t, rfl⟩ := List.exists_cons_of_ne_nil hne
  have hd : List.dropWhile pySpace (c :: t) = c :: t := by
    rw [List.dropWhile_cons, h1 c rfl]
    simp
  rw [pyStrip, hd]
  obtain ⟨d, r, hrev⟩ := List.exists_cons_of_ne_nil
    (show (c :: t).reverse ≠ [] by simp)
  have hdlast : pySpace d = false := by
    apply h2
    rw [← List.head?_reverse, hrev]
    rfl
  rw [hrev, List.dropWhile_cons, hdlast]
  simp only [Bool.false_eq_true, if_false]
  rw [← hrev, List.reverse_reverse]

theorem pyIntCore_cons (c : Char) (ds : List Char) :
    pyIntCore (c :: ds) =
      if c = '+' then
        if ds.isEmpty then none
        else if ds.all Char.isDigit then some ((digitsVal ds : Nat) : Int) else none
      else if c = '-' then
        if ds.isEmpty then none
        else if ds.all Char.isDigit then some (-(digitsVal ds : Int)) else none
      else if (c :: ds).all Char.isDigit then some ((digitsVal (c :: ds) : Nat) : Int)
      else none := rfl

theorem pyInt?_natDigits (n : Nat) : pyInt? (natDigits n) = some (n : Int) := by
  have hstrip : pyStrip (natDigits n) = natDigits n :=
    pyStrip_eq_self _ (fun c hc => (digit_mem_facts c (natDigits_mem n c hc)).1)
  rw [pyInt?, hstrip]
  obtain ⟨c, ds, hcd⟩ := List.exists_cons_of_ne_nil (natDigits_ne_nil n)
  have hc := natDigits_mem n c (hcd ▸ List.mem_cons_self c ds)
  have hfacts := digit_mem_facts c hc
  have hall : (c :: ds).all Char.isDigit = true := by
    rw [List.all_eq_true]
    intro x hx
    exact natDigits_all_isDigit n x (hcd ▸ hx)
  rw [hcd, pyIntCore_cons, if_neg hfacts.2.2.1, if_neg hfacts.2.2.2.1, if_pos hall,
    ← hcd, digitsVal_natDigits]

theorem splitLines_blockCore (s : Subtitle)
    (h1 : '\n' ∉ intStr s.index) (h2 : '\n' ∉ s.timestamp) :
    splitLines (subtitleBlockCore s) =
      intStr s.index :: s.timestamp :: splitLines s.text := by
  rw [subtitleBlockCore, splitLines, splitOnChar_append '\n' _ _ h1,
    splitOnChar_append '\n' _ _ h2]
  rfl

/-- Decomposition of `wellFormedCue`. -/
theorem wellFormedCue_parts (s : Subtitle) (h : wellFormedCue s = true) :
    0 < s.index ∧ ('\n' ∉ s.timestamp) ∧ solidLine s.timestamp = true ∧
      (∀ l ∈ splitLines s.text, solidLine l = true) ∧
      (∃ d, s.text.getLast? = some d ∧ pySpace d = false) := by
  simp only [wellFormedCue, Bool.and_eq_true, decide_eq_true_eq, List.all_eq_true] at h
  obtain ⟨⟨⟨⟨hidx, htsnl⟩, htssolid⟩, htxsolid⟩, hlast⟩ := h
  refine ⟨hidx, ?_, htssolid, htxsolid, ?_⟩
  · intro hmem
    have := htsnl '\n' hmem
    simp at this
  · cases hgl : s.text.getLast? with
    | none => rw [hgl] at hlast; cases hlast
    | some d =>
      rw [hgl] at hlast
      refine ⟨d, rfl, ?_⟩
      simpa using hlast

theorem text_ne_nil_of_getLast? (l : List Char) (d : Char) (h : l.getLast? = some d) :
    l ≠ [] := by
  intro hnil
  rw [hnil] at h
  cases h

theorem parseBlock_blockCore (s : Subtitle) (h : wellFormedCue s = true) :
    parseBlock (subtitleBlockCore s) = some s := by
  obtain ⟨hidx, htsnl, htssolid, htxsolid, d, hgl, hd⟩ := wellFormedCue_parts s h
  have hIeq : intStr s.index = natDigits s.index.toNat :=
    intStr_of_nonneg s.index (le_of_lt hidx)
  have hInl : '\n' ∉ intStr s.index := by
    intro hmem
    rw [hIeq] at hmem
    exact (digit_mem_facts _ (natDigits_mem _ _ hmem)).2.1 rfl
  have htxne : s.text ≠ [] := text_ne_nil_of_getLast? s.text d hgl
  have hBlast : (subtitleBlockCore s).getLast? = some d := by
    rw [show subtitleBlockCore s =
        (intStr s.index ++ '\n' :: s.timestamp ++ ['\n']) ++ s.text by
      simp [subtitleBlockCore]]
    rw [List.getLast?_append_of_ne_nil _ htxne]
    exact hgl
  have hBhead : ∀ c, (subtitleBlockCore s).head? = some c → pySpace c = false := by
    intro c hc
    obtain ⟨e, es, hes⟩ := List.exists_cons_of_ne_nil (natDigits_ne_nil s.index.toNat)
    rw [subtitleBlockCore, hIeq, hes] at hc
    simp only [List.cons_append, List.head?_cons, Option.some.injEq] at hc
    subst hc
    exact (digit_mem_facts _ (natDigits_mem _ _ (hes ▸ List.mem_cons_self e es))).1
  have hstrip : pyStrip (subtitleBlockCore s) = subtitleBlockCore s := by
    apply pyStrip_eq_self_of_ends _ _ hBhead
    · intro c hc
      rw [hBlast] at hc
      cases hc
      exact hd
    · rw [subtitleBlockCore, hIeq]
      obtain ⟨e, es, hes⟩ := List.exists_cons_of_ne_nil (natDigits_ne_nil s.index.toNat)
      rw [hes]
      simp
  obtain ⟨t2, tr, htx⟩ := List.exists_cons_of_ne_nil (splitOnChar_ne_nil '\n' s.text)
  unfold parseBlock
  rw [hstrip, splitLines_blockCore s hInl htsnl]
  rw [show splitLines s.text = t2 :: tr from htx]
  show (match pyInt? (intStr s.index) with
    | some index => some ⟨index, s.timestamp, joinLines (t2 :: tr)⟩
    | none => none) = some s
  rw [hIeq, pyInt?_natDigits]
  show some ⟨(s.index.toNat : Int), s.timestamp, joinLines (t2 :: tr)⟩ = some s
  rw [← htx]
  show some ⟨(s.index.toNat : Int), s.timestamp, joinLines (splitLines s.text)⟩ = some s
  rw [joinLines_splitLines, Int.toNat_of_nonneg (le_of_lt hidx)]

/-! ### Serialize-side structure lemmas -/

theorem subtitleBlockOut_eq (s : Subtitle) :
    subtitleBlockOut s = subtitleBlockCore s ++ ['\n', '\n'] := by
  simp [subtitleBlockOut, subtitleBlockCore]

theorem blocksJoin_cons₂ (b b2 : List Char) (bs : List (List Char)) :
    blocksJoin (b :: b2 :: bs) = b ++ '\n' :: '\n' :: blocksJoin (b2 :: bs) := rfl

theorem serialize_eq_blocksJoin (subs : List Subtitle) (hne : subs ≠ []) :
    create_translated_srt subs =
      blocksJoin (subs.map subtitleBlockCore) ++ ['\n', '\n'] := by
  induction subs with
  | nil => exact absurd rfl hne
  | cons s rest ih =>
    cases rest with
    | nil => simp [create_translated_srt, subtitleBlockOut_eq, blocksJoin]
    | cons t ts =>
      have hc : create_translated_srt (s :: t :: ts) =
          subtitleBlockOut s ++ create_translated_srt (t :: ts) := by
        simp [create_translated_srt]
      rw [hc, ih (List.cons_ne_nil t ts), subtitleBlockOut_eq]
      simp only [List.map_cons]
      rw [blocksJoin_cons₂]
      simp

theorem blockCore_eq_joinLines (s : Subtitle) :
    subtitleBlockCore s =
      joinLines (intStr s.index :: s.timestamp :: splitLines s.text) := by
  obtain ⟨t2, tr, htx⟩ := List.exists_cons_of_ne_nil (splitOnChar_ne_nil '\n' s.text)
  rw [show splitLines s.text = t2 :: tr from htx, joinLines_cons₂,
    joinLines_cons₂, ← htx, joinLines_splitOnChar]
  rfl

theorem solidLine_cons_of_head (c : Char) (t : List Char) (h : pySpace c = false) :
    solidLine (c :: t) = true := by
  simp [solidLine, h]

theorem blockCore_lines_good (s : Subtitle) (h : wellFormedCue s = true) :
    ∀ l ∈ intStr s.index :: s.timestamp :: splitLines s.text,
      '\n' ∉ l ∧ solidLine l = true := by
  obtain ⟨hidx, htsnl, htssolid, htxsolid, d, hgl, hd⟩ := wellFormedCue_parts s h
  have hIeq : intStr s.index = natDigits s.index.toNat :=
    intStr_of_nonneg s.index (le_of_lt hidx)
  intro l hl
  rcases List.mem_cons.mp hl with rfl | hl
  · constructor
    · intro hmem
      rw [hIeq] at hmem
      exact (digit_mem_facts _ (natDigits_mem _ _ hmem)).2.1 rfl
    · obtain ⟨e, es, hes⟩ := List.exists_cons_of_ne_nil (natDigits_ne_nil s.index.toNat)
      rw [hIeq, hes]
      exact solidLine_cons_of_head e es
        (digit_mem_facts _ (natDigits_mem _ _ (hes ▸ List.mem_cons_self e es))).1
  rcases List.mem_cons.mp hl with rfl | hl
  · exact ⟨htsnl, htssolid⟩
  · exact ⟨mem_splitOnChar_not_sep '\n' s.text l hl, htxsolid l hl⟩

theorem blocksJoin_eq_append (b : List Char) (bs : List (List Char)) :
    ∃ y, blocksJoin (b :: bs) = b ++ y := by
  cases bs with
  | nil => exact ⟨[], by simp [blocksJoin]⟩
  | cons b2 bs2 => exact ⟨'\n' :: '\n' :: blocksJoin (b2 :: bs2), rfl⟩

theorem blocksJoin_ne_nil (b : List Char) (bs : List (List Char)) (hb : b ≠ []) :
    blocksJoin (b :: bs) ≠ [] := by
  obtain ⟨y, hy⟩ := blocksJoin_eq_append b bs
  rw [hy]
  intro hcontra
  exact hb (List.append_eq_nil.mp hcontra).1

theorem blocksJoin_head? (b : List Char) (bs : List (List Char)) (hb : b ≠ []) :
    (blocksJoin (b :: bs)).head? = b.head? := by
  obtain ⟨y, hy⟩ := blocksJoin_eq_append b bs
  obtain ⟨c, t, rfl⟩ := List.exists_cons_of_ne_nil hb
  rw [hy]
  rfl

theorem blocksJoin_getLast?_prop (bs : List (List Char)) :
    ∀ b, (∀ x ∈ b :: bs, x ≠ [] ∧ ∀ c, x.getLast? = some c → pySpace c = false) →
      ∀ c, (blocksJoin (b :: bs)).getLast? = some c → pySpace c = false := by
  induction bs with
  | nil =>
    intro b h c hc
    exact (h b (List.mem_cons_self b [])).2 c hc
  | cons b2 bs2 ih =>
    intro b h c hc
    rw [blocksJoin_cons₂,
      show b ++ '\n' :: '\n' :: blocksJoin (b2 :: bs2) =
        b ++ (['\n', '\n'] ++ blocksJoin (b2 :: bs2)) from rfl,
      List.getLast?_append_of_ne_nil _ (by simp),
      List.getLast?_append_of_ne_nil _
        (blocksJoin_ne_nil b2 bs2 (h b2 (List.mem_cons_of_mem b
          (List.mem_cons_self b2 bs2))).1)] at hc
    exact ih b2 (fun x hx => h x (List.mem_cons_of_mem b hx)) c hc

theorem pyStrip_append_blank (X : List Char) (hne : X ≠ [])
    (h1 : ∀ c, X.head? = some c → pySpace c = false)
    (h2 : ∀ c, X.getLast? = some c → pySpace c = false) :
    pyStrip (X ++ ['\n', '\n']) = X := by
  obtain ⟨c, t, rfl⟩ := List.exists_cons_of_ne_nil hne
  have hfront : List.dropWhile pySpace ((c :: t) ++ ['\n', '\n']) =
      (c :: t) ++ ['\n', '\n'] := by
    rw [List.cons_append, List.dropWhile_cons, h1 c rfl]
    simp
  rw [pyStrip, hfront]
  have hrev : ((c :: t) ++ ['\n', '\n']).reverse = '\n' :: '\n' :: (c :: t).reverse := by
    simp
  rw [hrev]
  obtain ⟨d, r, hdr⟩ := List.exists_cons_of_ne_nil
    (show (c :: t).reverse ≠ [] by simp)
  have hd : pySpace d = false := by
    apply h2
    rw [← List.head?_reverse, hdr]
    rfl
  rw [List.dropWhile_cons, List.dropWhile_cons]
  simp only [show pySpace '\n' = true by decide, if_true]
  rw [hdr, List.dropWhile_cons, hd]
  simp only [Bool.false_eq_true, if_false]
  rw [← hdr, List.reverse_reverse]

/-! ### The round-trip master lemmas -/

theorem pyStrip_serialize (subs : List Subtitle) (hne : subs ≠ [])
    (hwf : ∀ c ∈ subs, wellFormedCue c = true) :
    pyStrip (create_translated_srt subs) = blocksJoin (subs.map subtitleBlockCore) := by
  obtain ⟨s, rest, rfl⟩ := List.exists_cons_of_ne_nil hne
  rw [serialize_eq_blocksJoin _ hne]
  have hcore_ne : ∀ x ∈ (s :: rest).map subtitleBlockCore, x ≠ [] ∧
      ∀ c, x.getLast? = some c → pySpace c = false := by
    intro x hx
    obtain ⟨u, hu, rfl⟩ := List.mem_map.mp hx
    obtain ⟨hidx, htsnl, htssolid, htxsolid, d, hgl, hd⟩ :=
      wellFormedCue_parts u (hwf u hu)
    have htxne : u.text ≠ [] := text_ne_nil_of_getLast? u.text d hgl
    have hlast : (subtitleBlockCore u).getLast? = some d := by
      rw [show subtitleBlockCore u =
          (intStr u.index ++ '\n' :: u.timestamp ++ ['\n']) ++ u.text by
        simp [subtitleBlockCore], List.getLast?_append_of_ne_nil _ htxne]
      exact hgl
    refine ⟨?_, ?_⟩
    · intro hnil
      rw [hnil] at hlast
      cases hlast
    · intro c hc
      rw [hlast] at hc
      cases hc
      exact hd
  rw [List.map_cons]
  apply pyStrip_append_blank
  · exact blocksJoin_ne_nil _ _
      (hcore_ne _ (by rw [List.map_cons]; exact List.mem_cons_self _ _)).1
  · intro c hc
    rw [blocksJoin_head? _ _
      (hcore_ne _ (by rw [List.map_cons]; exact List.mem_cons_self _ _)).1] at hc
    obtain ⟨hidx, htsnl, htssolid, htxsolid, d, hgl, hd⟩ :=
      wellFormedCue_parts s (hwf s (List.mem_cons_self s rest))
    have hIeq : intStr s.index = natDigits s.index.toNat :=
      intStr_of_nonneg s.index (le_of_lt hidx)
    obtain ⟨e, es, hes⟩ := List.exists_cons_of_ne_nil (natDigits_ne_nil s.index.toNat)
    rw [subtitleBlockCore, hIeq, hes] at hc
    simp only [List.cons_append, List.head?_cons, Option.some.injEq] at hc
    subst hc
    exact (digit_mem_facts _ (natDigits_mem _ _ (hes ▸ List.mem_cons_self e es))).1
  · intro c hc
    apply blocksJoin_getLast?_prop (rest.map subtitleBlockCore)
      (subtitleBlockCore s) ?_ c ?_
    · rw [← List.map_cons]
      exact hcore_ne
    · exact hc

theorem splitBlanks_blocksJoin (subs : List Subtitle) :
    subs ≠ [] → (∀ c ∈ subs, wellFormedCue c = true) →
      splitBlanksAux [] (blocksJoin (subs.map subtitleBlockCore)) =
        subs.map subtitleBlockCore := by
  induction subs with
  | nil => intro h _; exact absurd rfl h
  | cons s rest ih =>
    intro _ hwf
    have hlines := blockCore_lines_good s (hwf s (List.mem_cons_self s rest))
    cases rest with
    | nil =>
      rw [List.map_cons, List.map_nil,
        show blocksJoin [subtitleBlockCore s] = subtitleBlockCore s from rfl,
        blockCore_eq_joinLines s,
        splitBlanksAux_solid _ [] (List.cons_ne_nil _ _) hlines]
      simp
    | cons t ts =>
      have hwft : ∀ c ∈ t :: ts, wellFormedCue c = true := fun c hc =>
        hwf c (List.mem_cons_of_mem s hc)
      have hlinest := blockCore_lines_good t (hwft t (List.mem_cons_self t ts))
      have hsepnone : afterSepCount (blocksJoin ((t :: ts).map subtitleBlockCore))
          = none := by
        rw [List.map_cons]
        obtain ⟨y, hy⟩ := blocksJoin_eq_append (subtitleBlockCore t)
          (ts.map subtitleBlockCore)
        rw [hy, blockCore_eq_joinLines t, joinLines_cons₂, List.append_assoc,
          List.cons_append]
        exact afterSepCount_of_solid _ _
          (hlinest _ (List.mem_cons_self _ _)).1
          (hlinest _ (List.mem_cons_self _ _)).2
      rw [show blocksJoin ((s :: t :: ts).map subtitleBlockCore) =
          subtitleBlockCore s ++ '\n' :: '\n' ::
            blocksJoin ((t :: ts).map subtitleBlockCore) from rfl]
      rw [blockCore_eq_joinLines s,
        splitBlanksAux_block_sep _ [] _ (List.cons_ne_nil _ _) hlines hsepnone]
      rw [ih (List.cons_ne_nil t ts) hwft, ← blockCore_eq_joinLines s]
      simp

theorem filterMap_parseBlock_blockCore (l : List Subtitle)
    (h : ∀ c ∈ l, wellFormedCue c = true) :
    (l.map subtitleBlockCore).filterMap parseBlock = l := by
  induction l with
  | nil => rfl
  | cons s rest ih =>
    rw [List.map_cons, List.filterMap_cons,
      parseBlock_blockCore s (h s (List.mem_cons_self s rest)),
      ih (fun c hc => h c (List.mem_cons_of_mem s hc))]

/-- C3: for every Cue Set of well-formed cues, parsing the serialized Cue
Set yields the same Cue Set — every cue's index, timestamp line and text
are preserved exactly, in the same order, with no re-sorting or
renumbering. -/
theorem C3_parse_serialize_roundtrip (subs : List Subtitle)
    (h : ∀ c ∈ subs, wellFormedCue c = true) :
    parse_srt (create_translated_srt subs) = subs := by
  cases hsubs : subs with
  | nil => rfl
  | cons s rest =>
    rw [parse_srt, splitBlanks,
      pyStrip_serialize (s :: rest) (List.cons_ne_nil s rest) (hsubs ▸ h),
      splitBlanks_blocksJoin (s :: rest) (List.cons_ne_nil s rest) (hsubs ▸ h),
      filterMap_parseBlock_blockCore (s :: rest) (hsubs ▸ h)]

/-- Witness for C3 at a concrete two-cue set (multi-line text included). -/
theorem C3_parse_serialize_roundtrip_witness :
    (∀ c ∈ [(⟨1, "00:00:01,000 --> 00:00:02,500".toList, "Hello\nthere".toList⟩ : Subtitle),
        ⟨2, "00:00:03,000 --> 00:00:04,000".toList, "World".toList⟩],
      wellFormedCue c = true) ∧
    parse_srt (create_translated_srt
      [⟨1, "00:00:01,000 --> 00:00:02,500".toList, "Hello\nthere".toList⟩,
       ⟨2, "00:00:03,000 --> 00:00:04,000".toList, "World".toList⟩]) =
      [⟨1, "00:00:01,000 --> 00:00:02,500".toList, "Hello\nthere".toList⟩,
       ⟨2, "00:00:03,000 --> 00:00:04,000".toList, "World".toList⟩] :=
  ⟨by decide, C3_parse_serialize_roundtrip _ (by decide)⟩

end AiAssistantPro
